import Mathlib

/-
Shallow embedding of the UCI option subsystem of SugaR (src/src/ucioption.cpp):
the Option class with its kind-specific constructors and validating assignment
operator, the case-insensitive, insertion-ordered OptionsMap registry with its
UCI descriptor serialization, the tuning framework (make_option, the Entry
specializations, on_tune) and the BoolConditions sampler.

Machine integers of the source are modelled as Int/Nat.  std::stof is
modelled by an exact reading of the strtof grammar (decimal, hexadecimal,
infinity and NaN forms) together with the float-range error classification:
std::invalid_argument where no conversion can be performed, std::out_of_range
where the converted value overflows single-precision range or underflows
(tiny and inexact, the glibc ERANGE condition), and otherwise the converted
value - a finite value kept as the exact rational it denotes, an infinity,
or NaN - compared with IEEE semantics (comparisons with NaN are false).
Rounding of in-range finite values to 24-bit precision is the one
idealization kept: the bounds test reads the exact value where the program
reads its float rounding.
-/

/-- Accumulating decimal digit reader: digitsToNat ds acc folds the digit
characters ds onto acc in base 10, as strtof does while scanning. -/
def digitsToNat : List Char → Nat → Nat
  | [], acc => acc
  | c :: cs, acc => digitsToNat cs (10 * acc + (c.toNat - 48))

/-- Whitespace characters skipped by strtof (C isspace set). -/
def isWs (c : Char) : Bool :=
  c = ' ' || c = '\t' || c = '\n' || c = '\r' || c = '\x0b' || c = '\x0c'

/-- The int value of tolower as used by CaseInsensitiveLess and by the
keyword matching below: ASCII upper-case letters map 32 up, all other
characters are unchanged. -/
def lowerChar (c : Char) : Nat :=
  if 65 ≤ c.toNat ∧ c.toNat ≤ 90 then c.toNat + 32 else c.toNat

/-- Case-insensitive prefix test (pattern, input) for strtof's keyword
forms "inf"/"infinity" and "nan". -/
def isPrefixCI : List Char → List Char → Bool
  | [], _ => true
  | _ :: _, [] => false
  | p :: ps, c :: cs => lowerChar c == lowerChar p && isPrefixCI ps cs

/-- Hexadecimal digit test for strtof's 0x forms. -/
def isHexDig (c : Char) : Bool :=
  c.isDigit || (97 ≤ lowerChar c && lowerChar c ≤ 102)

/-- Accumulating hexadecimal digit reader. -/
def hexToNat : List Char → Nat → Nat
  | [], acc => acc
  | c :: cs, acc =>
    hexToNat cs (16 * acc + (if c.isDigit then c.toNat - 48 else lowerChar c - 87))

/-- A float value as strtof produces it: a finite value (kept as the exact
rational the text denotes; rounding to 24-bit precision is outside the
model), an infinity, or NaN. -/
inductive FloatVal where
  | val (q : ℚ)
  | inf (neg : Bool)
  | nan
deriving DecidableEq

/-- IEEE-754 strict less-than on float values: every comparison involving
NaN is false, -infinity is below and +infinity above every finite value. -/
def fLt : FloatVal → FloatVal → Bool
  | FloatVal.nan, _ => false
  | _, FloatVal.nan => false
  | FloatVal.inf n1, FloatVal.inf n2 => n1 && !n2
  | FloatVal.inf n1, FloatVal.val _ => n1
  | FloatVal.val _, FloatVal.inf n2 => !n2
  | FloatVal.val a, FloatVal.val b => decide (a < b)

/-- Result of std::stof: std::invalid_argument when no conversion can be
performed, std::out_of_range when the converted value falls out of float
range, otherwise the converted value. -/
inductive StofResult where
  | invalidArg
  | outOfRange
  | ok (x : FloatVal)
deriving DecidableEq

/-- Float-range classification of a finite converted value under
round-to-nearest-even.  Overflow: |q| at or beyond 2^128 - 2^103 (the
halfway point above FLT_MAX = 2^128 - 2^104) rounds to 2^128, so strtof
sets ERANGE and std::stof throws std::out_of_range.  Underflow (the glibc
ERANGE condition, hence an std::out_of_range throw): the value is tiny -
below 2^-126 - 2^-150 = (2^24 - 1)/2^150, the halfway point under the
smallest normal - nonzero, and not exactly representable in the subnormal
grid of step 2^-149 (equivalently 2^149 is not a multiple of the reduced
denominator).  All tests are integer arithmetic on the reduced
numerator/denominator. -/
def classifyFin (q : ℚ) : StofResult :=
  if (340282356779733661637539395458142568448 : Int) * (q.den : Int) ≤
      ((q.num.natAbs : Nat) : Int) then
    StofResult.outOfRange
  else if q.num ≠ 0 ∧
      ((q.num.natAbs : Int) * 1427247692705959881058285969449495136382746624 <
        16777215 * (q.den : Int)) ∧
      2 ^ 149 % q.den ≠ 0 then
    StofResult.outOfRange
  else StofResult.ok (FloatVal.val q)

/-- Model of std::stof on a std::string, following strtof: skip leading
whitespace and an optional sign; then an infinity or NaN keyword, a 0x
hexadecimal form (hex digits with optional hex fraction and optional
p-exponent), or a decimal form (digits with optional fraction and optional
e-exponent); trailing junk is ignored (strtof converts the longest valid
prefix, and an incomplete exponent is not part of it).  No convertible
prefix gives invalidArg (the std::invalid_argument throw); finite converted
values go through the float-range classification above. -/
def stof (s : String) : StofResult :=
  let cs0 := s.data.dropWhile isWs
  let sgn : Bool := cs0.head? == some '-'
  let cs1 := if cs0.head? == some '-' || cs0.head? == some '+' then cs0.tail else cs0
  if isPrefixCI "inf".data cs1 then StofResult.ok (FloatVal.inf sgn)
  else if isPrefixCI "nan".data cs1 then StofResult.ok FloatVal.nan
  else if cs1.head? == some '0' && (cs1.tail.head? == some 'x' || cs1.tail.head? == some 'X') then
    let hs := cs1.tail.tail
    let h1 := hs.takeWhile isHexDig
    let hrest := hs.dropWhile isHexDig
    let h2 := if hrest.head? == some '.' then hrest.tail.takeWhile isHexDig else []
    let hrest2 := if hrest.head? == some '.' then hrest.tail.dropWhile isHexDig else hrest
    if h1.isEmpty && h2.isEmpty then StofResult.ok (FloatVal.val 0)
    else
      let pexp : Int :=
        if hrest2.head? == some 'p' || hrest2.head? == some 'P' then
          let es := hrest2.tail
          let esgn : Bool := es.head? == some '-'
          let es1 := if es.head? == some '-' || es.head? == some '+' then es.tail else es
          let ds := es1.takeWhile Char.isDigit
          if ds.isEmpty then 0
          else if esgn then -(digitsToNat ds 0 : Int) else (digitsToNat ds 0 : Int)
        else 0
      let e2 : Int := pexp - 4 * h2.length
      let num : Nat :=
        if 0 ≤ e2 then hexToNat (h1 ++ h2) 0 * 2 ^ e2.toNat else hexToNat (h1 ++ h2) 0
      let den : Nat := if 0 ≤ e2 then 1 else 2 ^ (-e2).toNat
      classifyFin (mkRat (if sgn then -(num : Int) else (num : Int)) den)
  else
    let intPart := cs1.takeWhile Char.isDigit
    let rest1 := cs1.dropWhile Char.isDigit
    let fracPart := if rest1.head? == some '.' then rest1.tail.takeWhile Char.isDigit else []
    let rest2 := if rest1.head? == some '.' then rest1.tail.dropWhile Char.isDigit else rest1
    if intPart.isEmpty && fracPart.isEmpty then StofResult.invalidArg
    else
      let expo : Int :=
        if rest2.head? == some 'e' || rest2.head? == some 'E' then
          let es := rest2.tail
          let esgn : Bool := es.head? == some '-'
          let es1 := if es.head? == some '-' || es.head? == some '+' then es.tail else es
          let ds := es1.takeWhile Char.isDigit
          if ds.isEmpty then 0
          else if esgn then -(digitsToNat ds 0 : Int) else (digitsToNat ds 0 : Int)
        else 0
      let num : Nat :=
        if 0 ≤ expo then digitsToNat (intPart ++ fracPart) 0 * 10 ^ expo.toNat
        else digitsToNat (intPart ++ fracPart) 0
      let den : Nat :=
        if 0 ≤ expo then 10 ^ fracPart.length
        else 10 ^ fracPart.length * 10 ^ (-expo).toNat
      classifyFin (mkRat (if sgn then -(num : Int) else (num : Int)) den)

/-- The UCI::Option class: kind tag (the C++ `type` string), default and
current stringly-typed values, spin bounds, the registered on_change action
(modelled by an abstract identifier, none for nullptr) and the insertion
index assigned by Option::operator<<. -/
structure Opt where
  type : String
  defaultValue : String
  currentValue : String
  min : Int
  max : Int
  onChange : Option Nat
  idx : Nat
deriving DecidableEq

/-- Option::Option(const char* v, OnChange f): a string option. -/
def optString (v : String) (f : Option Nat) : Opt :=
  { type := "string", defaultValue := v, currentValue := v,
    min := 0, max := 0, onChange := f, idx := 0 }

/-- Option::Option(bool v, OnChange f): a check option. -/
def optCheck (v : Bool) (f : Option Nat) : Opt :=
  { type := "check", defaultValue := if v then "true" else "false",
    currentValue := if v then "true" else "false",
    min := 0, max := 0, onChange := f, idx := 0 }

/-- Option::Option(OnChange f): a button option (no value). -/
def optButton (f : Option Nat) : Opt :=
  { type := "button", defaultValue := "", currentValue := "",
    min := 0, max := 0, onChange := f, idx := 0 }

/-- std::to_string on a double holding the integer v (six fixed decimals). -/
def toStringDouble (v : Int) : String := toString v ++ ".000000"

/-- Option::Option(double v, int minv, int maxv, OnChange f): a spin option;
the source stores std::to_string(v) as default and current value.  The
engine only constructs spins from integral values, so v is an Int here. -/
def optSpin (v minv maxv : Int) (f : Option Nat) : Opt :=
  { type := "spin", defaultValue := toStringDouble v, currentValue := toStringDouble v,
    min := minv, max := maxv, onChange := f, idx := 0 }

/-- Option::Option(const char* v, const char* cur, OnChange f): a combo. -/
def optCombo (v cur : String) (f : Option Nat) : Opt :=
  { type := "combo", defaultValue := v, currentValue := cur,
    min := 0, max := 0, onChange := f, idx := 0 }

/-- Outcome of Option::operator=(const string&).  thrown records an
exception raised by stof (std::invalid_argument or std::out_of_range)
escaping the operator, the option left as carried; rejected is the silent
early return *this; accepted carries the updated option and the number of
times the on_change action ran. -/
inductive AssignResult where
  | thrown (o : Opt)
  | rejected (o : Opt)
  | accepted (o : Opt) (fires : Nat)
deriving DecidableEq

/-- The option state observable after operator= returns or throws. -/
def AssignResult.resOpt : AssignResult → Opt
  | .thrown o => o
  | .rejected o => o
  | .accepted o _ => o

/-- Shared tail of Option::operator=: update currentValue unless the option
is a button, then invoke on_change if registered. -/
def acceptAssign (o : Opt) (v : String) : AssignResult :=
  AssignResult.accepted (if o.type ≠ "button" then { o with currentValue := v } else o)
    (if o.onChange.isSome then 1 else 0)

/-- Option::operator=(const string& v): the validation chain of the source,
with C++ short-circuit evaluation preserved, so stof only runs on a spin
option with non-empty input. -/
def assign (o : Opt) (v : String) : AssignResult :=
  if o.type ≠ "button" ∧ v = "" then AssignResult.rejected o
  else if o.type = "check" ∧ v ≠ "true" ∧ v ≠ "false" then AssignResult.rejected o
  else if o.type = "spin" then
    match stof v with
    | StofResult.invalidArg => AssignResult.thrown o
    | StofResult.outOfRange => AssignResult.thrown o
    | StofResult.ok x =>
      if fLt x (FloatVal.val (o.min : ℚ)) || fLt (FloatVal.val (o.max : ℚ)) x then
        AssignResult.rejected o
      else acceptAssign o v
  else acceptAssign o v

/-- std::lexicographical_compare with an element order: strict lexicographic
comparison of the two sequences, a proper prefix being smaller. -/
def natLexLt : List Nat → List Nat → Bool
  | _, [] => false
  | [], _ :: _ => true
  | a :: as, b :: bs => if a < b then true else if b < a then false else natLexLt as bs

/-- A string viewed through tolower, the sequence CaseInsensitiveLess
actually compares. -/
def lowerStr (s : String) : List Nat := s.data.map lowerChar

/-- UCI::CaseInsensitiveLess::operator(): lexicographic comparison of the
two names under tolower. -/
def ciLess (s1 s2 : String) : Bool := natLexLt (lowerStr s1) (lowerStr s2)

/-- Key equivalence induced by CaseInsensitiveLess, as std::map uses it:
neither key is strictly below the other. -/
def ciEq (s1 s2 : String) : Bool := !ciLess s1 s2 && !ciLess s2 s1

/-- std::map insertion as performed by OptionsMap::operator[] followed by
assignment: walk the entries held in ascending CaseInsensitiveLess order;
on an equivalent key replace the mapped Option but keep the stored key (the
casing used at first insertion), otherwise place the new pair at its sorted
position. -/
def mapInsert : List (String × Opt) → String → Opt → List (String × Opt)
  | [], n, o => [(n, o)]
  | (k, w) :: rest, n, o =>
    if ciLess n k then (n, o) :: (k, w) :: rest
    else if ciLess k n then (k, w) :: mapInsert rest n o
    else (k, o) :: rest

/-- std::map find under CaseInsensitiveLess: the entry whose key is
equivalent to the probe, if any. -/
def mapFind : List (String × Opt) → String → Option Opt
  | [], _ => none
  | (k, w) :: rest, n => if ciEq n k then some w else mapFind rest n

/-- The entries are held in strictly ascending CaseInsensitiveLess order,
the std::map representation invariant. -/
def SortedCI (l : List (String × Opt)) : Prop :=
  l.Pairwise (fun e1 e2 => ciLess e1.1 e2.1 = true)

/-- UCI::OptionsMap together with the static insert_order counter that
Option::operator<< consults to stamp idx on each inserted Option. -/
structure Registry where
  entries : List (String × Opt)
  insertOrder : Nat
deriving DecidableEq

def regEmpty : Registry := { entries := [], insertOrder := 0 }

/-- om[n] << o : the inserted Option is copy-assigned and then stamped with
idx = insert_order++. -/
def regInsert (r : Registry) (n : String) (o : Opt) : Registry :=
  { entries := mapInsert r.entries n { o with idx := r.insertOrder },
    insertOrder := r.insertOrder + 1 }

/-- Truncation toward zero of a rational, the C++ int cast applied to the
float that stof produced. -/
def ratTrunc (q : ℚ) : Int :=
  if 0 ≤ q.num then ((q.num.toNat / q.den : Nat) : Int)
  else -(((-q.num).toNat / q.den : Nat) : Int)

/-- One descriptor line of UCI::operator<<(ostream&, const OptionsMap&):
"\noption name <Name> type <kind>", plus " default <defaultValue>" for
string/check/combo, plus " default <int(stof(default))> min <min> max <max>"
for spin, and nothing more for button.  none models the stof throw on a spin
whose stored default does not parse (never the case for engine-built spins). -/
def descriptorLine (nm : String) (o : Opt) : Option String :=
  let base := "\noption name " ++ nm ++ " type " ++ o.type
  let base2 :=
    if o.type = "string" ∨ o.type = "check" ∨ o.type = "combo"
    then base ++ " default " ++ o.defaultValue else base
  if o.type = "spin" then
    match stof o.defaultValue with
    | StofResult.ok (FloatVal.val q) =>
      some (base2 ++ " default " ++ toString (ratTrunc q) ++ " min " ++ toString o.min
        ++ " max " ++ toString o.max)
    | _ => none
  else some base2

/-- UCI::operator<<(ostream&, const OptionsMap&): for each idx from 0 to
size-1 scan the map for the entry carrying that idx and print its
descriptor line. -/
def serializeOptions (r : Registry) : List String :=
  (List.range r.entries.length).filterMap
    (fun i => (r.entries.find? (fun e => e.2.idx == i)).bind (fun e => descriptorLine e.1 e.2))

/-- A whole init()-style construction pass: fold a sequence of
om[name] << Option(...) insertions over a registry. -/
def insertAll (r : Registry) (l : List (String × Opt)) : Registry :=
  l.foldl (fun acc e => regInsert acc e.1 e.2) r

/-- The entries a construction pass starting at counter value c conceptually
produces: each Option stamped with consecutive idx values in sequence
order. -/
def tagFrom : Nat → List (String × Opt) → List (String × Opt)
  | _, [] => []
  | c, e :: rest => (e.1, { e.2 with idx := c }) :: tagFrom (c + 1) rest

/-- Identifier for the on_tune callback that make_option wires into every
tuning-generated Option. -/
def onTuneId : Nat := 0

/-- One line of the fishtest-ready parameter printout of make_option:
name, value, min, max, step (max-min)/20.0 and the fixed rate "0.0020". -/
structure DiagLine where
  name : String
  value : Int
  lo : Int
  hi : Int
  step : ℚ
  rate : String
deriving DecidableEq

/-- State touched by make_option: the global Options registry, the
LastOption pointer (modelled by the stored name of the most recently created
tuning Option) and the diagnostic lines printed so far. -/
structure TuneState where
  reg : Registry
  lastOption : Option String
  output : List DiagLine
deriving DecidableEq

/-- make_option(n, v, r) with the TuneResults override table tr: return
immediately when the range at the current value is degenerate (min = max);
otherwise substitute a recorded override for v if present, register a spin
Option over r(v) wired to on_tune, point LastOption at it, and print the
diagnostic line. -/
def tuneMakeOption (tr : String → Option Int) (st : TuneState) (n : String) (v : Int)
    (r : Int → Int × Int) : TuneState :=
  if (r v).1 = (r v).2 then st
  else
    let v2 := match tr n with | some w => w | none => v
    { reg := regInsert st.reg n (optSpin v2 (r v2).1 (r v2).2 (some onTuneId)),
      lastOption := some n,
      output := st.output ++
        [⟨n, v2, (r v2).1, (r v2).2, (((r v2).2 - (r v2).1 : Int) : ℚ) / 20, "0.0020"⟩] }

/-- Tune::Entry<Score>::init_option(): one make_option call for the midgame
half under "m"+name, then one for the endgame half under "e"+name. -/
def scoreInitOption (tr : String → Option Int) (st : TuneState) (nm : String)
    (mg eg : Int) (r : Int → Int × Int) : TuneState :=
  tuneMakeOption tr (tuneMakeOption tr st ("m" ++ nm) mg r) ("e" ++ nm) eg r

/-- on_tune(o): Tune::read_options() runs unless update_on_last is set and
the changed Option is not the one LastOption points at.  The result is
whether the re-synchronization happens. -/
def onTune (updateOnLast : Bool) (lastOption : Option String) (nm : String) : Bool :=
  !updateOnLast || (lastOption == some nm)

/-- BoolConditions state as used by BoolConditions::set(): the binary flag
vector, the parameter magnitudes, the shared variance and threshold, and the
function-static startup flag (true exactly until the first set() call in the
process finishes). -/
structure BoolCond where
  binary : List Bool
  values : List Int
  variance : Nat
  threshold : Int
  startup : Bool
deriving DecidableEq

/-- BoolConditions::set(): for each index draw one PRNG value (draws i is
the unsigned value drawn at iteration i) and set
binary[i] = !startup && (values[i] + int(draw % variance) > threshold),
then clear startup.  The printing of the flags is outside the model. -/
def bcSet (st : BoolCond) (draws : Nat → Nat) : BoolCond :=
  { st with
    binary := (List.range st.binary.length).map
      (fun i => !st.startup &&
        decide (st.values.getD i 0 + Int.ofNat (draws i % st.variance) > st.threshold)),
    startup := false }

/-- On the empty string stof performs no conversion. -/
theorem stof_empty : stof "" = StofResult.invalidArg := by decide

/-- C1, counterexample: the claim promises a silent no-op for spin input that
fails to parse as a number, but on the spin option Threads=4 in [1,512] the
assignment of "abc" reaches stof, which throws std::invalid_argument; the
error escapes operator= to the caller instead of being silently swallowed. -/
theorem assign_unparsable_spin_raises :
    assign (optSpin 4 1 512 none) "abc" = AssignResult.thrown (optSpin 4 1 512 none) := by
  decide

/-- C1, amended: empty input for a non-button kind, check input other than
"true"/"false", spin input converting to a finite value outside [min, max],
and spin input converting to an infinity (always outside the bounds under
IEEE comparison, so "inf" forms are silently rejected) are silent no-ops:
early return of the unchanged option, no notification, no error.  Spin
input on which stof fails is NOT silent: text with no convertible prefix
raises std::invalid_argument and text whose value falls out of float range
raises std::out_of_range, either exception escaping operator= to the caller
(the option is left unchanged).  Spin input converting to NaN is neither
rejected nor an error: both bound comparisons are false, so it is accepted
and stored. -/
theorem assign_invalid_silent_noop (o : Opt) (v : String) :
    (o.type ≠ "button" ∧ v = "" → assign o v = AssignResult.rejected o) ∧
    (o.type = "check" ∧ v ≠ "true" ∧ v ≠ "false" → assign o v = AssignResult.rejected o) ∧
    (∀ q : ℚ, o.type = "spin" → stof v = StofResult.ok (FloatVal.val q) →
      (q < (o.min : ℚ) ∨ (o.max : ℚ) < q) → assign o v = AssignResult.rejected o) ∧
    (∀ ng : Bool, o.type = "spin" → v ≠ "" → stof v = StofResult.ok (FloatVal.inf ng) →
      assign o v = AssignResult.rejected o) ∧
    (o.type = "spin" → v ≠ "" → stof v = StofResult.invalidArg →
      assign o v = AssignResult.thrown o) ∧
    (o.type = "spin" → v ≠ "" → stof v = StofResult.outOfRange →
      assign o v = AssignResult.thrown o) ∧
    (o.type = "spin" → v ≠ "" → stof v = StofResult.ok FloatVal.nan →
      assign o v = acceptAssign o v) := by
  have hsetup : o.type = "spin" → v ≠ "" →
      ¬(o.type ≠ "button" ∧ v = "") ∧ ¬(o.type = "check" ∧ v ≠ "true" ∧ v ≠ "false") := by
    intro ht hv
    refine ⟨fun h => hv h.2, fun h => ?_⟩
    rw [ht] at h
    exact absurd h.1 (by decide)
  refine ⟨?_, ?_, ?_, ?_, ?_, ?_, ?_⟩
  · intro h
    rw [assign, if_pos h]
  · intro h
    by_cases h0 : o.type ≠ "button" ∧ v = ""
    · rw [assign, if_pos h0]
    · rw [assign, if_neg h0, if_pos h]
  · intro q ht hq hout
    have hv : v ≠ "" := by
      intro hv
      rw [hv, stof_empty] at hq
      exact StofResult.noConfusion hq
    obtain ⟨h0, h1⟩ := hsetup ht hv
    have hcond : (fLt (FloatVal.val q) (FloatVal.val (o.min : ℚ)) ||
        fLt (FloatVal.val (o.max : ℚ)) (FloatVal.val q)) = true := by
      rcases hout with h | h
      · rw [Bool.or_eq_true]
        exact Or.inl (by simp only [fLt, decide_eq_true_eq]; exact h)
      · rw [Bool.or_eq_true]
        exact Or.inr (by simp only [fLt, decide_eq_true_eq]; exact h)
    rw [assign, if_neg h0, if_neg h1, if_pos ht, hq]
    simp only [if_pos hcond]
  · intro ng ht hv hq
    obtain ⟨h0, h1⟩ := hsetup ht hv
    have hcond : (fLt (FloatVal.inf ng) (FloatVal.val (o.min : ℚ)) ||
        fLt (FloatVal.val (o.max : ℚ)) (FloatVal.inf ng)) = true := by
      cases ng <;> simp [fLt]
    rw [assign, if_neg h0, if_neg h1, if_pos ht, hq]
    simp only [if_pos hcond]
  · intro ht hv hq
    obtain ⟨h0, h1⟩ := hsetup ht hv
    rw [assign, if_neg h0, if_neg h1, if_pos ht, hq]
  · intro ht hv hq
    obtain ⟨h0, h1⟩ := hsetup ht hv
    rw [assign, if_neg h0, if_neg h1, if_pos ht, hq]
  · intro ht hv hq
    obtain ⟨h0, h1⟩ := hsetup ht hv
    have hcond : ¬((fLt FloatVal.nan (FloatVal.val (o.min : ℚ)) ||
        fLt (FloatVal.val (o.max : ℚ)) FloatVal.nan) = true) := by
      simp [fLt]
    rw [assign, if_neg h0, if_neg h1, if_pos ht, hq]
    simp only [if_neg hcond]

/-- C1 amended, witness: a check option silently rejects the text "maybe". -/
theorem assign_invalid_silent_noop_witness :
    assign (optCheck true (some 0)) "maybe" = AssignResult.rejected (optCheck true (some 0)) :=
  (assign_invalid_silent_noop (optCheck true (some 0)) "maybe").2.1 (by decide)

/-- C2: on a spin option with a registered on_change action, assignment of a
non-empty numeric text v parsing to q succeeds (updating currentValue to v
and firing the notification exactly once) if and only if min ≤ q ≤ max; in
particular both boundary values are accepted. -/
theorem spin_assign_iff (o : Opt) (v : String) (q : ℚ)
    (ht : o.type = "spin") (hv : v ≠ "") (hq : stof v = StofResult.ok (FloatVal.val q))
    (hf : o.onChange.isSome = true) :
    assign o v = AssignResult.accepted { o with currentValue := v } 1 ↔
      (o.min : ℚ) ≤ q ∧ q ≤ (o.max : ℚ) := by
  have h0 : ¬(o.type ≠ "button" ∧ v = "") := by
    intro h
    exact hv h.2
  have h1 : ¬(o.type = "check" ∧ v ≠ "true" ∧ v ≠ "false") := by
    intro h
    rw [ht] at h
    exact absurd h.1 (by decide)
  have hb : o.type ≠ "button" := by
    rw [ht]
    decide
  rw [assign, if_neg h0, if_neg h1, if_pos ht, hq]
  by_cases hout : q < (o.min : ℚ) ∨ (o.max : ℚ) < q
  · have hcond : (fLt (FloatVal.val q) (FloatVal.val (o.min : ℚ)) ||
        fLt (FloatVal.val (o.max : ℚ)) (FloatVal.val q)) = true := by
      rcases hout with h | h
      · rw [Bool.or_eq_true]
        exact Or.inl (by simp only [fLt, decide_eq_true_eq]; exact h)
      · rw [Bool.or_eq_true]
        exact Or.inr (by simp only [fLt, decide_eq_true_eq]; exact h)
    simp only [if_pos hcond]
    constructor
    · intro h
      exact absurd h (by simp)
    · intro h
      rcases hout with h1 | h2
      · exact absurd h.1 (not_le.mpr h1)
      · exact absurd h.2 (not_le.mpr h2)
  · push_neg at hout
    have hcond : ¬((fLt (FloatVal.val q) (FloatVal.val (o.min : ℚ)) ||
        fLt (FloatVal.val (o.max : ℚ)) (FloatVal.val q)) = true) := by
      simp only [fLt, Bool.or_eq_true, decide_eq_true_eq]
      push_neg
      exact hout
    simp only [if_neg hcond]
    constructor
    · intro _
      exact hout
    · intro _
      rw [acceptAssign, if_pos hb, hf]
      simp

/-- C2, witness (the Threads scenario): on Option("Threads", 4, 1, 512) with
a registered action, assign("8") is accepted, the value becomes "8" and the
notification fires exactly once. -/
theorem spin_assign_iff_witness :
    assign (optSpin 4 1 512 (some 0)) "8" =
      AssignResult.accepted { optSpin 4 1 512 (some 0) with currentValue := "8" } 1 :=
  (spin_assign_iff (optSpin 4 1 512 (some 0)) "8" 8 rfl (by decide) (by decide) rfl).mpr
    (by decide)

/-- C10: operator= never touches type, defaultValue, min, max, idx or the
registered on_change action, whatever the input and outcome (throw, silent
rejection or acceptance); the only field it may write is currentValue, and
for a button option even currentValue is left untouched. -/
theorem assign_frame (o : Opt) (v : String) :
    ((assign o v).resOpt).type = o.type ∧
    ((assign o v).resOpt).defaultValue = o.defaultValue ∧
    ((assign o v).resOpt).min = o.min ∧
    ((assign o v).resOpt).max = o.max ∧
    ((assign o v).resOpt).idx = o.idx ∧
    ((assign o v).resOpt).onChange = o.onChange ∧
    (o.type = "button" → ((assign o v).resOpt).currentValue = o.currentValue) := by
  have hacc : ∀ w : String,
      ((acceptAssign o w).resOpt).type = o.type ∧
      ((acceptAssign o w).resOpt).defaultValue = o.defaultValue ∧
      ((acceptAssign o w).resOpt).min = o.min ∧
      ((acceptAssign o w).resOpt).max = o.max ∧
      ((acceptAssign o w).resOpt).idx = o.idx ∧
      ((acceptAssign o w).resOpt).onChange = o.onChange ∧
      (o.type = "button" → ((acceptAssign o w).resOpt).currentValue = o.currentValue) := by
    intro w
    rw [acceptAssign]
    by_cases hb : o.type ≠ "button"
    · rw [if_pos hb]
      exact ⟨rfl, rfl, rfl, rfl, rfl, rfl, fun h => absurd h hb⟩
    · rw [if_neg hb]
      exact ⟨rfl, rfl, rfl, rfl, rfl, rfl, fun _ => rfl⟩
  rw [assign]
  by_cases h0 : o.type ≠ "button" ∧ v = ""
  · rw [if_pos h0]
    exact ⟨rfl, rfl, rfl, rfl, rfl, rfl, fun _ => rfl⟩
  · rw [if_neg h0]
    by_cases h1 : o.type = "check" ∧ v ≠ "true" ∧ v ≠ "false"
    · rw [if_pos h1]
      exact ⟨rfl, rfl, rfl, rfl, rfl, rfl, fun _ => rfl⟩
    · rw [if_neg h1]
      by_cases h2 : o.type = "spin"
      · rw [if_pos h2]
        cases hs : stof v with
        | invalidArg => exact ⟨rfl, rfl, rfl, rfl, rfl, rfl, fun _ => rfl⟩
        | outOfRange => exact ⟨rfl, rfl, rfl, rfl, rfl, rfl, fun _ => rfl⟩
        | ok x =>
          by_cases hout : (fLt x (FloatVal.val (o.min : ℚ)) ||
              fLt (FloatVal.val (o.max : ℚ)) x) = true
          · simp only [if_pos hout]
            exact ⟨rfl, rfl, rfl, rfl, rfl, rfl, fun _ => rfl⟩
          · simp only [if_neg hout]
            exact hacc v
      · rw [if_neg h2]
        exact hacc v

/-- C10, witness: assigning "xyz" to a button option leaves currentValue
untouched. -/
theorem assign_frame_witness :
    ((assign (optButton (some 2)) "xyz").resOpt).currentValue =
      (optButton (some 2)).currentValue :=
  (assign_frame (optButton (some 2)) "xyz").2.2.2.2.2.2 rfl

theorem natLexLt_irrefl (a : List Nat) : natLexLt a a = false := by
  induction a with
  | nil => rfl
  | cons x xs ih => simp [natLexLt, ih]

theorem natLexLt_eq_of_not (a : List Nat) :
    ∀ b, natLexLt a b = false → natLexLt b a = false → a = b := by
  induction a with
  | nil =>
    intro b h1 _
    cases b with
    | nil => rfl
    | cons y ys => exact absurd h1 (by simp [natLexLt])
  | cons x xs ih =>
    intro b h1 h2
    cases b with
    | nil => exact absurd h2 (by simp [natLexLt])
    | cons y ys =>
      rw [natLexLt] at h1 h2
      by_cases hxy : x < y
      · rw [if_pos hxy] at h1
        exact absurd h1 (by simp)
      · by_cases hyx : y < x
        · rw [if_pos hyx] at h2
          exact absurd h2 (by simp)
        · have hxe : x = y := Nat.le_antisymm (Nat.not_lt.mp hyx) (Nat.not_lt.mp hxy)
          rw [if_neg hxy, if_neg hyx] at h1
          rw [if_neg hyx, if_neg hxy] at h2
          rw [hxe, ih ys h1 h2]

theorem natLexLt_trans (a : List Nat) :
    ∀ b c, natLexLt a b = true → natLexLt b c = true → natLexLt a c = true := by
  induction a with
  | nil =>
    intro b c h1 h2
    cases b with
    | nil => exact absurd h1 (by simp [natLexLt])
    | cons y ys =>
      cases c with
      | nil => exact absurd h2 (by simp [natLexLt])
      | cons z zs => simp [natLexLt]
  | cons x xs ih =>
    intro b c h1 h2
    cases b with
    | nil => exact absurd h1 (by simp [natLexLt])
    | cons y ys =>
      cases c with
      | nil => exact absurd h2 (by simp [natLexLt])
      | cons z zs =>
        rw [natLexLt] at h1 h2 ⊢
        by_cases hxy : x < y
        · by_cases hyz : y < z
          · rw [if_pos (Nat.lt_trans hxy hyz)]
          · by_cases hzy : z < y
            · rw [if_neg hyz, if_pos hzy] at h2
              exact absurd h2 (by simp)
            · have hyz2 : y = z := Nat.le_antisymm (Nat.not_lt.mp hzy) (Nat.not_lt.mp hyz)
              rw [if_pos (hyz2 ▸ hxy)]
        · by_cases hyx : y < x
          · rw [if_neg hxy, if_pos hyx] at h1
            exact absurd h1 (by simp)
          · have hxy2 : x = y := Nat.le_antisymm (Nat.not_lt.mp hyx) (Nat.not_lt.mp hxy)
            rw [if_neg hxy, if_neg hyx] at h1
            by_cases hyz : y < z
            · rw [hxy2, if_pos hyz]
            · by_cases hzy : z < y
              · rw [if_neg hyz, if_pos hzy] at h2
                exact absurd h2 (by simp)
              · rw [if_neg hyz, if_neg hzy] at h2
                have hxz : ¬x < z := by omega
                have hzx : ¬z < x := by omega
                rw [if_neg hxz, if_neg hzx]
                exact ih ys zs h1 h2

/-- Two names are map-equivalent exactly when their tolower images agree. -/
theorem ciEq_iff (s1 s2 : String) : ciEq s1 s2 = true ↔ lowerStr s1 = lowerStr s2 := by
  rw [ciEq, ciLess, ciLess]
  constructor
  · intro h
    rw [Bool.and_eq_true, Bool.not_eq_true', Bool.not_eq_true'] at h
    exact natLexLt_eq_of_not _ _ h.1 h.2
  · intro h
    rw [h]
    simp [natLexLt_irrefl]

theorem ciEq_refl (s : String) : ciEq s s = true := (ciEq_iff s s).mpr rfl

theorem ciEq_comm (s1 s2 : String) : ciEq s1 s2 = ciEq s2 s1 := by
  rw [ciEq, ciEq, Bool.and_comm]

theorem ciEq_trans (s1 s2 s3 : String) (h1 : ciEq s1 s2 = true) (h2 : ciEq s2 s3 = true) :
    ciEq s1 s3 = true :=
  (ciEq_iff s1 s3).mpr (((ciEq_iff s1 s2).mp h1).trans ((ciEq_iff s2 s3).mp h2))

theorem ciLess_congr_left (s1 s2 t : String) (h : ciEq s1 s2 = true) :
    ciLess s1 t = ciLess s2 t := by
  rw [ciLess, ciLess, (ciEq_iff s1 s2).mp h]

theorem ciLess_congr_right (s1 s2 t : String) (h : ciEq s1 s2 = true) :
    ciLess t s1 = ciLess t s2 := by
  rw [ciLess, ciLess, (ciEq_iff s1 s2).mp h]

theorem ciEq_congr_left (s1 s2 t : String) (h : ciEq s1 s2 = true) :
    ciEq s1 t = ciEq s2 t := by
  rw [ciEq, ciEq, ciLess_congr_left s1 s2 t h, ciLess_congr_right s1 s2 t h]

theorem ciEq_false_of_ciLess (s1 s2 : String) (h : ciLess s1 s2 = true) :
    ciEq s1 s2 = false := by
  rw [ciEq, h]
  rfl

theorem ciEq_false_of_ciLess_rev (s1 s2 : String) (h : ciLess s2 s1 = true) :
    ciEq s1 s2 = false := by
  rw [ciEq, h]
  simp

/-- C4: every registered Option serializes as "option name <Name> type
<kind>" (preceded by the separating newline the stream operator writes)
followed by the kind-specific fields: string, check and combo kinds append
" default <value>"; spin appends " default <value> min <min> max <max>"
with the default printed through int(stof(.)); button appends nothing. -/
theorem descriptor_line_format (nm : String) (o : Opt) :
    ((o.type = "string" ∨ o.type = "check" ∨ o.type = "combo") →
      descriptorLine nm o =
        some ("\noption name " ++ nm ++ " type " ++ o.type ++ " default " ++ o.defaultValue)) ∧
    (∀ q : ℚ, o.type = "spin" → stof o.defaultValue = StofResult.ok (FloatVal.val q) →
      descriptorLine nm o =
        some ("\noption name " ++ nm ++ " type " ++ "spin" ++ " default " ++ toString (ratTrunc q)
          ++ " min " ++ toString o.min ++ " max " ++ toString o.max)) ∧
    (o.type = "button" →
      descriptorLine nm o = some ("\noption name " ++ nm ++ " type " ++ "button")) := by
  refine ⟨?_, ?_, ?_⟩
  · intro h
    have hnspin : ¬(o.type = "spin") := by
      rcases h with h | h | h <;> rw [h] <;> decide
    rw [descriptorLine]
    simp only [if_pos h, if_neg hnspin]
  · intro q ht hq
    simp [descriptorLine, ht, hq]
  · intro h
    simp [descriptorLine, h]

/-- C4, witness: the Hash spin option (default 16, range [1, 131072])
serializes with default, min and max fields. -/
theorem descriptor_line_format_witness :
    descriptorLine "Hash" (optSpin 16 1 131072 (some 1)) =
      some ("\noption name " ++ "Hash" ++ " type " ++ "spin" ++ " default "
        ++ toString (ratTrunc 16) ++ " min " ++ toString ((1 : Int))
        ++ " max " ++ toString ((131072 : Int))) :=
  (descriptor_line_format "Hash" (optSpin 16 1 131072 (some 1))).2.1 16 rfl (by decide)

theorem bool_eq_false {b : Bool} (h : ¬b = true) : b = false := by
  cases b
  · rfl
  · exact absurd rfl h

theorem ciLess_trans (a b c : String) (h1 : ciLess a b = true) (h2 : ciLess b c = true) :
    ciLess a c = true :=
  natLexLt_trans _ _ _ h1 h2

theorem ciEq_of_not_less (n k : String) (h1 : ¬ciLess n k = true) (h2 : ¬ciLess k n = true) :
    ciEq n k = true := by
  rw [ciEq, bool_eq_false h1, bool_eq_false h2]
  rfl

theorem ciEq_ne_true_of_eq_false {s1 s2 : String} (h : ciEq s1 s2 = false) :
    ¬ciEq s1 s2 = true := by
  rw [h]
  simp

/-- Probing a map with equivalent names gives the same result. -/
theorem mapFind_congr (l : List (String × Opt)) (n1 n2 : String) (h : ciEq n1 n2 = true) :
    mapFind l n1 = mapFind l n2 := by
  induction l with
  | nil => rfl
  | cons e rest ih =>
    obtain ⟨k, w⟩ := e
    rw [mapFind, mapFind, ciEq_congr_left n1 n2 k h, ih]

/-- After inserting under a name, probing under that name finds the newly
stored Option. -/
theorem mapFind_insert_self (l : List (String × Opt)) (n : String) (o : Opt) :
    mapFind (mapInsert l n o) n = some o := by
  induction l with
  | nil => rw [mapInsert, mapFind, if_pos (ciEq_refl n)]
  | cons e rest ih =>
    obtain ⟨k, w⟩ := e
    rw [mapInsert]
    by_cases h1 : ciLess n k = true
    · rw [if_pos h1, mapFind, if_pos (ciEq_refl n)]
    · rw [if_neg h1]
      by_cases h2 : ciLess k n = true
      · rw [if_pos h2, mapFind,
          if_neg (ciEq_ne_true_of_eq_false (ciEq_false_of_ciLess_rev n k h2)), ih]
      · rw [if_neg h2, mapFind, if_pos (ciEq_of_not_less n k h1 h2)]

/-- Inserting under a name does not disturb probes under non-equivalent
names. -/
theorem mapFind_insert_other (l : List (String × Opt)) (n n2 : String) (o : Opt)
    (hne : ciEq n n2 = false) :
    mapFind (mapInsert l n o) n2 = mapFind l n2 := by
  have hne2 : ¬ciEq n2 n = true := by
    rw [ciEq_comm]
    exact ciEq_ne_true_of_eq_false hne
  induction l with
  | nil =>
    show mapFind [(n, o)] n2 = none
    rw [mapFind, if_neg hne2, mapFind]
  | cons e rest ih =>
    obtain ⟨k, w⟩ := e
    rw [mapInsert]
    by_cases h1 : ciLess n k = true
    · rw [if_pos h1, mapFind, if_neg hne2]
    · rw [if_neg h1]
      by_cases h2 : ciLess k n = true
      · rw [if_pos h2, mapFind, mapFind, ih]
      · rw [if_neg h2, mapFind, mapFind]
        have hk : ciEq n k = true := ciEq_of_not_less n k h1 h2
        have hn2k : ¬ciEq n2 k = true := by
          intro hc
          have : ciEq n n2 = true :=
            ciEq_trans n k n2 hk (by rw [ciEq_comm]; exact hc)
          rw [this] at hne
          exact absurd hne (by simp)
        rw [if_neg hn2k, if_neg hn2k]

/-- Inserting a fresh name (no equivalent key present) grows the map by one
entry. -/
theorem mapInsert_fresh_length (l : List (String × Opt)) (n : String) (o : Opt)
    (hf : ∀ e ∈ l, ciEq e.1 n = false) :
    (mapInsert l n o).length = l.length + 1 := by
  induction l with
  | nil => rfl
  | cons e rest ih =>
    obtain ⟨k, w⟩ := e
    rw [mapInsert]
    by_cases h1 : ciLess n k = true
    · rw [if_pos h1]
      simp
    · rw [if_neg h1]
      by_cases h2 : ciLess k n = true
      · rw [if_pos h2]
        simp only [List.length_cons]
        rw [ih (fun e he => hf e (List.mem_cons_of_mem _ he))]
      · have hk := hf (k, w) (List.mem_cons_self _ _)
        rw [ciEq_of_not_less k n h2 h1] at hk
        exact absurd hk (by simp)

/-- Every entry of the inserted map either carries a key equivalent to the
inserted name or was already present. -/
theorem mem_mapInsert_key (l : List (String × Opt)) (n : String) (o : Opt) :
    ∀ e ∈ mapInsert l n o, ciEq e.1 n = true ∨ e ∈ l := by
  induction l with
  | nil =>
    intro e he
    rw [mapInsert] at he
    simp only [List.mem_singleton] at he
    left
    rw [he]
    exact ciEq_refl n
  | cons p rest ih =>
    obtain ⟨k, w⟩ := p
    intro e he
    rw [mapInsert] at he
    by_cases h1 : ciLess n k = true
    · rw [if_pos h1] at he
      rcases List.mem_cons.mp he with he | he
      · left
        rw [he]
        exact ciEq_refl n
      · right
        exact he
    · rw [if_neg h1] at he
      by_cases h2 : ciLess k n = true
      · rw [if_pos h2] at he
        rcases List.mem_cons.mp he with he | he
        · right
          rw [he]
          exact List.mem_cons_self _ _
        · rcases ih e he with hek | hel
          · left
            exact hek
          · right
            exact List.mem_cons_of_mem _ hel
      · rw [if_neg h2] at he
        rcases List.mem_cons.mp he with he | he
        · left
          rw [he]
          exact ciEq_of_not_less k n h2 h1
        · right
          exact List.mem_cons_of_mem _ he

/-- There is always an entry for the inserted name (up to equivalence). -/
theorem exists_mem_mapInsert (l : List (String × Opt)) (n : String) (o : Opt) :
    ∃ e ∈ mapInsert l n o, ciEq e.1 n = true := by
  induction l with
  | nil => exact ⟨(n, o), List.mem_singleton.mpr rfl, ciEq_refl n⟩
  | cons p rest ih =>
    obtain ⟨k, w⟩ := p
    rw [mapInsert]
    by_cases h1 : ciLess n k = true
    · rw [if_pos h1]
      exact ⟨(n, o), List.mem_cons_self _ _, ciEq_refl n⟩
    · rw [if_neg h1]
      by_cases h2 : ciLess k n = true
      · rw [if_pos h2]
        obtain ⟨e, he, hek⟩ := ih
        exact ⟨e, List.mem_cons_of_mem _ he, hek⟩
      · rw [if_neg h2]
        exact ⟨(k, o), List.mem_cons_self _ _, ciEq_of_not_less k n h2 h1⟩

/-- Insertion preserves the std::map strict ordering invariant. -/
theorem sortedCI_mapInsert (l : List (String × Opt)) (n : String) (o : Opt)
    (hs : SortedCI l) : SortedCI (mapInsert l n o) := by
  induction l with
  | nil =>
    rw [mapInsert]
    exact List.pairwise_singleton _ _
  | cons p rest ih =>
    obtain ⟨k, w⟩ := p
    have hs2 := List.pairwise_cons.mp hs
    rw [mapInsert]
    by_cases h1 : ciLess n k = true
    · rw [if_pos h1]
      refine List.pairwise_cons.mpr ⟨?_, hs⟩
      intro e he
      rcases List.mem_cons.mp he with he | he
      · rw [he]
        exact h1
      · exact ciLess_trans n k e.1 h1 (hs2.1 e he)
    · rw [if_neg h1]
      by_cases h2 : ciLess k n = true
      · rw [if_pos h2]
        refine List.pairwise_cons.mpr ⟨?_, ih hs2.2⟩
        intro e he
        rcases mem_mapInsert_key rest n o e he with hek | hel
        · rw [ciLess_congr_right e.1 n k hek]
          exact h2
        · exact hs2.1 e hel
      · rw [if_neg h2]
        exact List.pairwise_cons.mpr ⟨hs2.1, hs2.2⟩

/-- Inserting a name for which an equivalent key is already present leaves
the number of entries unchanged (the mapped value is replaced in place). -/
theorem mapInsert_equiv_length (l : List (String × Opt)) (n : String) (o : Opt)
    (he : ∃ e ∈ l, ciEq e.1 n = true) (hs : SortedCI l) :
    (mapInsert l n o).length = l.length := by
  induction l with
  | nil =>
    obtain ⟨e, hmem, _⟩ := he
    exact absurd hmem (List.not_mem_nil e)
  | cons p rest ih =>
    obtain ⟨k, w⟩ := p
    have hs2 := List.pairwise_cons.mp hs
    obtain ⟨e, hmem, heq⟩ := he
    rw [mapInsert]
    by_cases h1 : ciLess n k = true
    · exfalso
      rcases List.mem_cons.mp hmem with hh | hh
      · rw [hh] at heq
        rw [ciEq, Bool.and_eq_true] at heq
        rw [h1] at heq
        exact absurd heq.2 (by simp)
      · have hlt : ciLess n e.1 = true := ciLess_trans n k e.1 h1 (hs2.1 e hh)
        rw [ciEq_false_of_ciLess_rev e.1 n hlt] at heq
        exact absurd heq (by simp)
    · rw [if_neg h1]
      by_cases h2 : ciLess k n = true
      · rw [if_pos h2]
        simp only [List.length_cons]
        have hrest : e ∈ rest := by
          rcases List.mem_cons.mp hmem with hh | hh
          · exfalso
            rw [hh] at heq
            rw [ciEq_false_of_ciLess k n h2] at heq
            exact absurd heq (by simp)
          · exact hh
        rw [ih ⟨e, hrest, heq⟩ hs2.2]
      · rw [if_neg h2]
        simp

/-- C5: names that differ only in letter case denote the same registry
entry: probes under equivalent names agree; after inserting under one
casing, a probe under the other casing returns the stored Option; insertion
preserves the map ordering invariant; and re-inserting under the other
casing replaces in place, never creating a duplicate entry. -/
theorem case_insensitive_registry (entries : List (String × Opt)) (n1 n2 : String)
    (o1 o2 : Opt) (heq : ciEq n1 n2 = true) (hs : SortedCI entries) :
    mapFind entries n1 = mapFind entries n2 ∧
    mapFind (mapInsert entries n1 o1) n2 = some o1 ∧
    SortedCI (mapInsert entries n1 o1) ∧
    (mapInsert (mapInsert entries n1 o1) n2 o2).length =
      (mapInsert entries n1 o1).length := by
  refine ⟨mapFind_congr entries n1 n2 heq, ?_, sortedCI_mapInsert entries n1 o1 hs, ?_⟩
  · exact (mapFind_congr _ n2 n1 (by rw [ciEq_comm]; exact heq)).trans
      (mapFind_insert_self entries n1 o1)
  · obtain ⟨e, he, hek⟩ := exists_mem_mapInsert entries n1 o1
    exact mapInsert_equiv_length _ n2 o2 ⟨e, he, ciEq_trans e.1 n1 n2 hek heq⟩
      (sortedCI_mapInsert entries n1 o1 hs)

/-- C5, witness: with "Hash" registered, inserting under "hash" and probing
under "HASH" retrieves the Option just stored. -/
theorem case_insensitive_registry_witness :
    mapFind (mapInsert [("Hash", optSpin 16 1 131072 none)] "hash" (optCheck true none))
      "HASH" = some (optCheck true none) :=
  (case_insensitive_registry [("Hash", optSpin 16 1 131072 none)] "hash" "HASH"
    (optCheck true none) (optCheck false none) (by decide)
    (List.pairwise_singleton _ _)).2.1

theorem tagFrom_length (c : Nat) (l : List (String × Opt)) :
    (tagFrom c l).length = l.length := by
  induction l generalizing c with
  | nil => rfl
  | cons e rest ih => rw [tagFrom, List.length_cons, List.length_cons, ih]

theorem tagFrom_get? (c : Nat) (l : List (String × Opt)) (i : Nat) :
    (tagFrom c l).get? i = (l.get? i).map (fun p => (p.1, { p.2 with idx := c + i })) := by
  induction l generalizing c i with
  | nil => rw [tagFrom]; rfl
  | cons e rest ih =>
    cases i with
    | zero => rw [tagFrom]; rfl
    | succ j =>
      rw [tagFrom, List.get?_cons_succ, List.get?_cons_succ, ih (c + 1) j]
      have : c + 1 + j = c + (j + 1) := by omega
      rw [this]

theorem mem_tagFrom (c : Nat) (l : List (String × Opt)) (e : String × Opt)
    (he : e ∈ tagFrom c l) :
    ∃ i, i < l.length ∧
      (l.get? i).map (fun p => (p.1, { p.2 with idx := c + i })) = some e := by
  induction l generalizing c with
  | nil => exact absurd he (List.not_mem_nil e)
  | cons p rest ih =>
    rw [tagFrom] at he
    rcases List.mem_cons.mp he with he | he
    · refine ⟨0, by simp, ?_⟩
      rw [List.get?_cons_zero, he]
      rfl
    · obtain ⟨j, hj, hjy⟩ := ih (c + 1) he
      refine ⟨j + 1, by simp [Nat.succ_lt_succ hj], ?_⟩
      rw [List.get?_cons_succ]
      have : c + (j + 1) = c + 1 + j := by omega
      rw [this]
      exact hjy

/-- find? of the unique element satisfying the predicate. -/
theorem find_unique {α : Type} (l : List α) (p : α → Bool) (x : α) (hx : x ∈ l)
    (hpx : p x = true) (hu : ∀ y ∈ l, p y = true → y = x) : l.find? p = some x := by
  induction l with
  | nil => exact absurd hx (List.not_mem_nil x)
  | cons a t ih =>
    by_cases ha : p a = true
    · rw [List.find?_cons_of_pos _ ha, hu a (List.mem_cons_self _ _) ha]
    · rw [List.find?_cons_of_neg _ ha]
      refine ih ?_ (fun y hy hpy => hu y (List.mem_cons_of_mem _ hy) hpy)
      rcases List.mem_cons.mp hx with h | h
      · rw [h] at hpx
        exact absurd hpx ha
      · exact h

/-- Inserting a fresh name permutes to consing the new entry in front. -/
theorem mapInsert_perm (l : List (String × Opt)) (n : String) (o : Opt)
    (hf : ∀ e ∈ l, ciEq e.1 n = false) :
    List.Perm (mapInsert l n o) ((n, o) :: l) := by
  induction l with
  | nil =>
    rw [mapInsert]
  | cons p rest ih =>
    obtain ⟨k, w⟩ := p
    rw [mapInsert]
    by_cases h1 : ciLess n k = true
    · rw [if_pos h1]
    · rw [if_neg h1]
      by_cases h2 : ciLess k n = true
      · rw [if_pos h2]
        have hrest := ih (fun e he => hf e (List.mem_cons_of_mem _ he))
        exact (hrest.cons (k, w)).trans (List.Perm.swap (n, o) (k, w) rest)
      · have := hf (k, w) (List.mem_cons_self _ _)
        rw [ciEq_of_not_less k n h2 h1] at this
        exact absurd this (by simp)

/-- A construction pass over pairwise-fresh names: the resulting entries are
a permutation of the input sequence stamped with consecutive idx values
starting at the current counter, and the counter advances by the number of
insertions. -/
theorem insertAll_spec (l : List (String × Opt)) :
    ∀ r : Registry,
      (∀ e ∈ l, ∀ e2 ∈ r.entries, ciEq e.1 e2.1 = false) →
      (l.Pairwise fun e1 e2 => ciEq e1.1 e2.1 = false) →
      List.Perm (insertAll r l).entries (r.entries ++ tagFrom r.insertOrder l) ∧
      (insertAll r l).insertOrder = r.insertOrder + l.length := by
  induction l with
  | nil =>
    intro r _ _
    rw [tagFrom, List.append_nil]
    exact ⟨List.Perm.refl _, rfl⟩
  | cons e rest ih =>
    intro r hdisj hpw
    obtain ⟨n, o⟩ := e
    have hpw2 := List.pairwise_cons.mp hpw
    have hfresh : ∀ e2 ∈ r.entries, ciEq e2.1 n = false := by
      intro e2 he2
      rw [ciEq_comm]
      exact hdisj (n, o) (List.mem_cons_self _ _) e2 he2
    have hperm2 : List.Perm (regInsert r n o).entries
        ((n, { o with idx := r.insertOrder }) :: r.entries) :=
      mapInsert_perm r.entries n _ hfresh
    have hdisj2 : ∀ e ∈ rest, ∀ e2 ∈ (regInsert r n o).entries, ciEq e.1 e2.1 = false := by
      intro e he e2 he2
      rcases List.mem_cons.mp (hperm2.mem_iff.mp he2) with h | h
      · have hne := hpw2.1 e he
        rw [ciEq_comm] at hne
        rw [h]
        exact hne
      · exact hdisj e (List.mem_cons_of_mem _ he) e2 h
    have hih := ih (regInsert r n o) hdisj2 hpw2.2
    constructor
    · show List.Perm (insertAll (regInsert r n o) rest).entries _
      refine hih.1.trans ?_
      refine (hperm2.append_right (tagFrom (regInsert r n o).insertOrder rest)).trans ?_
      rw [tagFrom]
      exact List.perm_middle.symm
    · show (insertAll (regInsert r n o) rest).insertOrder = _
      rw [hih.2]
      show r.insertOrder + 1 + rest.length = r.insertOrder + (rest.length + 1)
      omega

/-- Indexing a list through range and get? is the same as traversing it. -/
theorem filterMap_range_get? {α β : Type} (t : List α) (g : α → Option β) :
    (List.range t.length).filterMap (fun i => (t.get? i).bind g) = t.filterMap g := by
  induction t with
  | nil => rfl
  | cons a rest ih =>
    rw [List.length_cons, List.range_succ_eq_map, List.filterMap_cons, List.filterMap_map]
    have hcomp : ((fun i => ((a :: rest).get? i).bind g) ∘ fun i => i + 1) =
        fun i => (rest.get? i).bind g := by
      funext i
      simp [Function.comp]
    rw [hcomp, ih, List.get?_cons_zero, Option.some_bind, List.filterMap_cons]

theorem filterMap_length_of_isSome {α β : Type} (t : List α) (g : α → Option β)
    (h : ∀ e ∈ t, (g e).isSome = true) : (t.filterMap g).length = t.length := by
  induction t with
  | nil => rfl
  | cons a rest ih =>
    have ha := h a (List.mem_cons_self _ _)
    rw [List.filterMap_cons]
    cases hga : g a with
    | none =>
      rw [hga] at ha
      exact absurd ha (by simp)
    | some b =>
      rw [List.length_cons, List.length_cons,
        ih (fun e he => h e (List.mem_cons_of_mem _ he))]

/-- The descriptor line does not depend on the idx stamp. -/
theorem descriptorLine_idx (nm : String) (o : Opt) (i : Nat) :
    descriptorLine nm { o with idx := i } = descriptorLine nm o := rfl

theorem filterMap_ext_mem {α β : Type} (l : List α) (f g : α → Option β)
    (h : ∀ x ∈ l, f x = g x) : l.filterMap f = l.filterMap g := by
  induction l with
  | nil => rfl
  | cons a rest ih =>
    rw [List.filterMap_cons, List.filterMap_cons, h a (List.mem_cons_self _ _),
      ih (fun x hx => h x (List.mem_cons_of_mem _ hx))]

/-- C3: a construction pass inserting pairwise-distinct (up to case) names
into a fresh registry stamps the Options with idx = 0, 1, 2, ... in
insertion order (strictly increasing, whatever the alphabetic order of the
names), and serialization walks idx upward, so it emits exactly one
descriptor line per Option in that same insertion order. -/
theorem insertion_order_serialization (l : List (String × Opt))
    (hpw : l.Pairwise fun e1 e2 => ciEq e1.1 e2.1 = false) :
    List.Perm (insertAll regEmpty l).entries (tagFrom 0 l) ∧
    serializeOptions (insertAll regEmpty l) =
      (tagFrom 0 l).filterMap (fun e => descriptorLine e.1 e.2) ∧
    ((∀ e ∈ l, (descriptorLine e.1 e.2).isSome = true) →
      (serializeOptions (insertAll regEmpty l)).length = l.length) := by
  obtain ⟨hperm0, _⟩ := insertAll_spec l regEmpty
    (fun e _ e2 he2 => absurd he2 (List.not_mem_nil e2)) hpw
  have hperm : List.Perm (insertAll regEmpty l).entries (tagFrom 0 l) := hperm0
  have hlen : (insertAll regEmpty l).entries.length = l.length := by
    rw [hperm.length_eq, tagFrom_length]
  have hfind : ∀ i, i < l.length →
      (insertAll regEmpty l).entries.find? (fun e => e.2.idx == i) =
        (tagFrom 0 l).get? i := by
    intro i hi
    obtain ⟨p, hp⟩ : ∃ p, l.get? i = some p := by
      cases hLp : l.get? i with
      | none => exact absurd (List.get?_eq_none.mp hLp) (Nat.not_le.mpr hi)
      | some p => exact ⟨p, rfl⟩
    have hget : (tagFrom 0 l).get? i = some (p.1, { p.2 with idx := 0 + i }) := by
      rw [tagFrom_get?, hp]
      rfl
    rw [hget]
    apply find_unique
    · exact hperm.mem_iff.mpr (List.get?_mem hget)
    · show ((p.1, { p.2 with idx := 0 + i }).2.idx == i) = true
      simp
    · intro y hy hyp
      obtain ⟨j, hj, hjy⟩ := mem_tagFrom 0 l y (hperm.mem_iff.mp hy)
      obtain ⟨q, hq⟩ : ∃ q, l.get? j = some q := by
        cases hLq : l.get? j with
        | none => exact absurd (List.get?_eq_none.mp hLq) (Nat.not_le.mpr hj)
        | some q => exact ⟨q, rfl⟩
      rw [hq] at hjy
      have hy_eq : y = (q.1, { q.2 with idx := 0 + j }) := (Option.some.inj hjy).symm
      have hji : j = i := by
        have hyi : y.2.idx = i := by simpa using hyp
        rw [hy_eq] at hyi
        simp only at hyi
        omega
      rw [hji] at hq
      have hqp : q = p := Option.some.inj (hq.symm.trans hp)
      rw [hy_eq, hji, hqp]
  have hserial : serializeOptions (insertAll regEmpty l) =
      (tagFrom 0 l).filterMap (fun e => descriptorLine e.1 e.2) := by
    rw [serializeOptions, hlen]
    rw [filterMap_ext_mem (List.range l.length) _
      (fun i => ((tagFrom 0 l).get? i).bind (fun e => descriptorLine e.1 e.2))
      (fun i hi => by rw [hfind i (List.mem_range.mp hi)])]
    rw [show l.length = (tagFrom 0 l).length from (tagFrom_length 0 l).symm]
    exact filterMap_range_get? (tagFrom 0 l) _
  refine ⟨hperm, hserial, ?_⟩
  intro hiso
  rw [hserial, ← tagFrom_length 0 l]
  apply filterMap_length_of_isSome
  intro e he
  obtain ⟨j, hj, hjy⟩ := mem_tagFrom 0 l e he
  obtain ⟨q, hq⟩ : ∃ q, l.get? j = some q := by
    cases hLq : l.get? j with
    | none => exact absurd (List.get?_eq_none.mp hLq) (Nat.not_le.mpr hj)
    | some q => exact ⟨q, rfl⟩
  rw [hq] at hjy
  have he_eq : e = (q.1, { q.2 with idx := 0 + j }) := (Option.some.inj hjy).symm
  rw [he_eq]
  show (descriptorLine q.1 { q.2 with idx := 0 + j }).isSome = true
  rw [descriptorLine_idx]
  exact hiso q (List.get?_mem hq)

/-- C3, witness: inserting "Zeta" then "Alpha" (reverse alphabetic order)
yields idx 0 for Zeta and idx 1 for Alpha. -/
theorem insertion_order_serialization_witness :
    List.Perm (insertAll regEmpty
        [("Zeta", optString "z" none), ("Alpha", optString "a" none)]).entries
      (tagFrom 0 [("Zeta", optString "z" none), ("Alpha", optString "a" none)]) :=
  (insertion_order_serialization
    [("Zeta", optString "z" none), ("Alpha", optString "a" none)] (by decide)).1

/-- C6: make_option with a degenerate range (min = max at the current value)
creates nothing at all: the registry, LastOption and the printout are left
untouched; with a proper range and a fresh name it creates exactly one
Option and prints exactly one diagnostic line. -/
theorem make_option_degenerate_elision (tr : String → Option Int) (st : TuneState)
    (n : String) (v : Int) (r : Int → Int × Int) :
    ((r v).1 = (r v).2 → tuneMakeOption tr st n v r = st) ∧
    ((r v).1 ≠ (r v).2 → tr n = none →
      (∀ e ∈ st.reg.entries, ciEq e.1 n = false) →
      (tuneMakeOption tr st n v r).reg.entries.length = st.reg.entries.length + 1 ∧
      (tuneMakeOption tr st n v r).output =
        st.output ++ [⟨n, v, (r v).1, (r v).2, (((r v).2 - (r v).1 : Int) : ℚ) / 20, "0.0020"⟩]) := by
  constructor
  · intro h
    rw [tuneMakeOption, if_pos h]
  · intro h htr hf
    rw [tuneMakeOption, if_neg h]
    constructor
    · simp only [htr, regInsert]
      exact mapInsert_fresh_length st.reg.entries n _ hf
    · simp only [htr]

/-- C6, witness: a non-degenerate entry named "K" at value 3 with range
(v-1, v+1) adds exactly one Option to an empty registry. -/
theorem make_option_degenerate_elision_witness :
    (tuneMakeOption (fun _ => none) ⟨regEmpty, none, []⟩ "K" 3
        (fun v => (v - 1, v + 1))).reg.entries.length =
      (⟨regEmpty, none, []⟩ : TuneState).reg.entries.length + 1 :=
  ((make_option_degenerate_elision (fun _ => none) ⟨regEmpty, none, []⟩ "K" 3
    (fun v => (v - 1, v + 1))).2 (by decide) rfl
    (fun e he => absurd he (List.not_mem_nil e))).1

/-- C7, counterexample: a score-typed entry whose range function is
degenerate at both halves produces zero Options, not the two the claim
promises for every score-typed entry. -/
theorem score_init_degenerate_no_options :
    (scoreInitOption (fun _ => none) ⟨regEmpty, none, []⟩ "Foo" 5 7
      (fun _ => (0, 0))).reg.entries = [] := rfl

/-- C7, amended: a score-typed TuningEntry named nm produces exactly two
Options, "m"+nm for the midgame half and "e"+nm for the endgame half,
provided the range at each half's value is non-degenerate (a degenerate half
is elided per C6); each is a spin Option wired to on_tune and carrying its
half's value and its own independently computed bounds. -/
theorem score_init_two_options (tr : String → Option Int) (st : TuneState) (nm : String)
    (mg eg : Int) (r : Int → Int × Int)
    (hm : (r mg).1 ≠ (r mg).2) (he : (r eg).1 ≠ (r eg).2)
    (htm : tr ("m" ++ nm) = none) (hte : tr ("e" ++ nm) = none)
    (hfm : ∀ e ∈ st.reg.entries, ciEq e.1 ("m" ++ nm) = false)
    (hfe : ∀ e ∈ st.reg.entries, ciEq e.1 ("e" ++ nm) = false)
    (hme : ciEq ("e" ++ nm) ("m" ++ nm) = false) :
    (scoreInitOption tr st nm mg eg r).reg.entries.length = st.reg.entries.length + 2 ∧
    mapFind (scoreInitOption tr st nm mg eg r).reg.entries ("m" ++ nm) =
      some { optSpin mg (r mg).1 (r mg).2 (some onTuneId) with idx := st.reg.insertOrder } ∧
    mapFind (scoreInitOption tr st nm mg eg r).reg.entries ("e" ++ nm) =
      some { optSpin eg (r eg).1 (r eg).2 (some onTuneId) with
        idx := st.reg.insertOrder + 1 } := by
  have hst1 : (tuneMakeOption tr st ("m" ++ nm) mg r).reg.entries =
      mapInsert st.reg.entries ("m" ++ nm)
        { optSpin mg (r mg).1 (r mg).2 (some onTuneId) with idx := st.reg.insertOrder } := by
    rw [tuneMakeOption, if_neg hm]
    simp only [htm, regInsert]
  have hst1c : (tuneMakeOption tr st ("m" ++ nm) mg r).reg.insertOrder =
      st.reg.insertOrder + 1 := by
    rw [tuneMakeOption, if_neg hm]
    rfl
  have hst2 : (scoreInitOption tr st nm mg eg r).reg.entries =
      mapInsert (tuneMakeOption tr st ("m" ++ nm) mg r).reg.entries ("e" ++ nm)
        { optSpin eg (r eg).1 (r eg).2 (some onTuneId) with
          idx := st.reg.insertOrder + 1 } := by
    rw [scoreInitOption, tuneMakeOption, if_neg he]
    simp only [hte, regInsert, hst1c]
  have hfresh_e : ∀ e2 ∈ (tuneMakeOption tr st ("m" ++ nm) mg r).reg.entries,
      ciEq e2.1 ("e" ++ nm) = false := by
    intro e2 he2
    rw [hst1] at he2
    rcases mem_mapInsert_key _ _ _ e2 he2 with hk | hk
    · cases hc : ciEq e2.1 ("e" ++ nm)
      · rfl
      · exfalso
        have h1 : ciEq ("e" ++ nm) ("m" ++ nm) = true :=
          ciEq_trans _ _ _ (by rw [ciEq_comm]; exact hc) hk
        rw [h1] at hme
        exact absurd hme (by simp)
    · exact hfe e2 hk
  refine ⟨?_, ?_, ?_⟩
  · rw [hst2, mapInsert_fresh_length _ _ _ hfresh_e, hst1,
      mapInsert_fresh_length _ _ _ hfm]
  · rw [hst2, mapFind_insert_other _ _ _ _ hme, hst1]
    exact mapFind_insert_self _ _ _
  · rw [hst2]
    exact mapFind_insert_self _ _ _

/-- C7 amended, witness: entry "Foo" with score halves 5 and 7 and range
(v-10, v+10) adds exactly the two Options mFoo and eFoo to an empty
registry. -/
theorem score_init_two_options_witness :
    (scoreInitOption (fun _ => none) ⟨regEmpty, none, []⟩ "Foo" 5 7
        (fun v => (v - 10, v + 10))).reg.entries.length =
      (⟨regEmpty, none, []⟩ : TuneState).reg.entries.length + 2 :=
  (score_init_two_options (fun _ => none) ⟨regEmpty, none, []⟩ "Foo" 5 7
    (fun v => (v - 10, v + 10)) (by decide) (by decide) rfl rfl
    (fun e he => absurd he (List.not_mem_nil e))
    (fun e he => absurd he (List.not_mem_nil e)) (by decide)).1

/-- C9: with the batch-mode flag update_on_last clear, a change to any
tuning-generated Option re-runs Tune::read_options(); with the flag set,
the re-synchronization runs exactly when the changed Option is the one
LastOption designates — never for an earlier Option — and a successful
make_option leaves LastOption pointing at the Option it just created, so
the last-created Option of the batch is the trigger. -/
theorem on_tune_batch_mode (flag : Bool) (last : Option String) (nm : String) :
    (flag = false → onTune flag last nm = true) ∧
    (flag = true → (onTune flag last nm = true ↔ last = some nm)) ∧
    (∀ (tr : String → Option Int) (st : TuneState) (v : Int) (r : Int → Int × Int),
      (r v).1 ≠ (r v).2 → (tuneMakeOption tr st nm v r).lastOption = some nm) := by
  refine ⟨?_, ?_, ?_⟩
  · intro h
    rw [onTune, h]
    rfl
  · intro h
    rw [onTune, h]
    simp
  · intro tr st v r h
    rw [tuneMakeOption, if_neg h]

/-- C9, witness: in batch mode a change to the LastOption-designated Option
triggers the re-synchronization. -/
theorem on_tune_batch_mode_witness : onTune true (some "X") "X" = true :=
  ((on_tune_batch_mode true (some "X") "X").2.1 rfl).mpr rfl

/-- C8: with the startup flag still set (the first set() call of the
process), the sampler produces all-false flags whatever the PRNG draws; and
a second call with variance 1 deterministically yields
flags[i] = (values[i] > threshold), since any draw mod 1 is 0. -/
theorem bool_conditions_sampler (st : BoolCond) (d1 d2 : Nat → Nat)
    (hstart : st.startup = true) :
    (bcSet st d1).binary = List.replicate st.binary.length false ∧
    (st.variance = 1 →
      (bcSet (bcSet st d1) d2).binary =
        (List.range st.binary.length).map
          (fun i => decide (st.values.getD i 0 > st.threshold))) := by
  constructor
  · rw [bcSet]
    simp [hstart]
  · intro hvar
    rw [bcSet, bcSet]
    simp [hstart, hvar]

/-- C8, witness: values 600 and 400 against threshold 500 under variance 1
give flags (true, false) on the second call. -/
theorem bool_conditions_sampler_witness :
    (bcSet (bcSet ⟨[false, false], [600, 400], 1, 500, true⟩ (fun _ => 7))
      (fun _ => 13)).binary = [true, false] :=
  ((bool_conditions_sampler ⟨[false, false], [600, 400], 1, 500, true⟩
    (fun _ => 7) (fun _ => 13) rfl).2 rfl).trans (by decide)
